import Mathlib

/-!
# Verification of the build-profiler timing aggregator

Shallow embedding of `src/BuildProfilerPlugin.ts`: the stateful timing
aggregator created by `buildProfilerPlugin()`.  JavaScript `Map`s are
modelled as association lists preserving insertion order, the `Set` of
processed ids as a duplicate-free list, timestamps (`performance.now()`)
as integers supplied by the caller, and the platform path separator
(`path.sep`, a single character on every platform) as an explicit
character parameter.
-/

namespace BuildProfiler

/-- Lookup in an insertion-ordered association list (JS `Map.get`). -/
def getAssoc : List (String × Int) → String → Option Int
  | [], _ => none
  | (k, v) :: rest, key => if k = key then some v else getAssoc rest key

/-- Update/insert in an insertion-ordered association list (JS `Map.set`):
overwrites in place when the key is present, appends otherwise. -/
def setAssoc : List (String × Int) → String → Int → List (String × Int)
  | [], key, val => [(key, val)]
  | (k, v) :: rest, key, val =>
    if k = key then (k, val) :: rest else (k, v) :: setAssoc rest key val

/-- Removal from an association list (JS `Map.delete`). -/
def eraseAssoc : List (String × Int) → String → List (String × Int)
  | [], _ => []
  | (k, v) :: rest, key => if k = key then rest else (k, v) :: eraseAssoc rest key

/-- Characters of `id.split('?')[0]`: everything before the first `?`
(the whole string when there is no `?`). -/
def takeUntilQuery : List Char → List Char
  | [] => []
  | c :: cs => if c = '?' then [] else c :: takeUntilQuery cs

/-- Characters of `cleanId.split(path.sep).join('/')`: since `path.sep`
is a single character, split-then-join replaces each occurrence of the
separator by `/`. -/
def replaceSep (sep : Char) : List Char → List Char
  | [] => []
  | c :: cs => (if c = sep then '/' else c) :: replaceSep sep cs

/-- `normalizePath` from the source: drop everything from the first `?`
(`id.split('?')[0]`), then replace the platform separator (`path.sep`,
one character) by `/` (`cleanId.split(path.sep).join('/')`). -/
def normalizePath (sep : Char) (id : String) : String :=
  String.mk (replaceSep sep (takeUntilQuery id.data))

/-- The closure state of `buildProfilerPlugin()`:
`moduleTransformTimes`, `slowModules`, `startTimes`, `processedIds`,
`totalModules`, `processedModules`, `buildStartTime`. -/
structure PluginState where
  moduleTransformTimes : List (String × Int)
  slowModules : List (String × Int)
  startTimes : List (String × Int)
  processedIds : List String
  totalModules : Nat
  processedModules : Nat
  buildStartTime : Int
  deriving Repr, DecidableEq

/-- The state at plugin creation: empty maps, zero counters. -/
def initialState : PluginState :=
  ⟨[], [], [], [], 0, 0, 0⟩

/-- The `buildStart` hook: resets every map, list and counter and records
`buildStartTime = performance.now()`.  The previous state is discarded. -/
def buildStart (now : Int) : PluginState :=
  ⟨[], [], [], [], 0, 0, now⟩

/-- The `transform` hook: normalize the id; on first sight add it to
`processedIds` and increment `totalModules`; unconditionally record
`startTimes[key] = performance.now()`. -/
def transform (sep : Char) (s : PluginState) (id : String) (now : Int) :
    PluginState :=
  let key := normalizePath sep id
  let s1 :=
    if key ∈ s.processedIds then s
    else { s with processedIds := s.processedIds ++ [key],
                  totalModules := s.totalModules + 1 }
  { s1 with startTimes := setAssoc s1.startTimes key now }

/-- The `moduleParsed` hook.  The source guard is `if (!startTime) return`:
it fires both when the key has no pending start (`undefined`) and when the
recorded timestamp is the falsy number `0`.  Otherwise the duration is
recorded, `processedModules` incremented, and entries with
`duration > 200` appended to `slowModules`; the pending start is deleted
at the end.  The progress `console.log` block mutates no state. -/
def moduleParsed (sep : Char) (s : PluginState) (id : String) (now : Int) :
    PluginState :=
  let key := normalizePath sep id
  match getAssoc s.startTimes key with
  | none => s
  | some t =>
    if t = 0 then s
    else
      let duration := now - t
      let s1 := { s with
        moduleTransformTimes := setAssoc s.moduleTransformTimes key duration,
        processedModules := s.processedModules + 1 }
      let s2 :=
        if 200 < duration then
          { s1 with slowModules := s1.slowModules ++ [(key, duration)] }
        else s1
      { s2 with startTimes := eraseAssoc s2.startTimes key }

/-- Whether the progress block (`if (processedModules % 100 === 0 ||
processedModules === totalModules)`) executes during a `moduleParsed`
call on state `s`: the hook must get past the `!startTime` guard, and the
condition is evaluated on the already-incremented `processedModules`. -/
def parsedFires (sep : Char) (s : PluginState) (id : String) : Bool :=
  let key := normalizePath sep id
  match getAssoc s.startTimes key with
  | none => false
  | some t =>
    if t = 0 then false
    else (s.processedModules + 1) % 100 == 0
      || s.processedModules + 1 == s.totalModules

/-- Stable insertion step for a descending sort by duration: `x` is
placed before the first element whose duration is not larger, so earlier
entries precede later ones on ties. -/
def insertDesc (x : String × Int) : List (String × Int) → List (String × Int)
  | [] => [x]
  | y :: ys => if x.2 < y.2 then y :: insertDesc x ys else x :: y :: ys

/-- Stable sort, descending by duration.  JavaScript `Array.sort` with
comparator `(a, b) => b.time - a.time` is exactly the stable descending
sort by `.time`, and a stable sort under a total preorder is unique, so
this insertion sort computes the same list as the source. -/
def sortDesc : List (String × Int) → List (String × Int)
  | [] => []
  | x :: xs => insertDesc x (sortDesc xs)

/-- The `closeBundle` hook's effect on state: it returns early when
`slowModules` is empty; otherwise its only mutation is the in-place
`slowModules.sort((a, b) => b.time - a.time)` — a stable descending sort
by duration. -/
def closeBundle (s : PluginState) : PluginState :=
  if s.slowModules = [] then s
  else { s with slowModules := sortDesc s.slowModules }

/-- States reachable from a `buildStart` reset by the plugin's hooks
(with one fixed platform separator, any ids and any timestamps). -/
inductive Reachable (sep : Char) : PluginState → Prop
  | step_start (now : Int) : Reachable sep (buildStart now)
  | step_transform {s : PluginState} (id : String) (now : Int) :
      Reachable sep s → Reachable sep (transform sep s id now)
  | step_parsed {s : PluginState} (id : String) (now : Int) :
      Reachable sep s → Reachable sep (moduleParsed sep s id now)
  | step_close {s : PluginState} :
      Reachable sep s → Reachable sep (closeBundle s)

/-- Invariant satisfied by every state reachable from a `buildStart`
reset: the total-modules counter counts the duplicate-free
`processedIds`; keys of `startTimes` and `moduleTransformTimes` were
registered in `processedIds`; the duration map is never larger than the
completion counter; and a nonempty slow-module list witnesses at least
one completion of a registered module. -/
def Inv (s : PluginState) : Prop :=
  s.totalModules = s.processedIds.length ∧
  s.processedIds.Nodup ∧
  (∀ p ∈ s.startTimes, p.1 ∈ s.processedIds) ∧
  (∀ p ∈ s.moduleTransformTimes, p.1 ∈ s.processedIds) ∧
  s.moduleTransformTimes.length ≤ s.processedModules ∧
  (s.slowModules ≠ [] → 1 ≤ s.processedModules ∧ s.processedIds ≠ [])

/-- Concrete run in which one module goes through a second
start/complete pair within one build: `buildStart` at 0, then
start/complete of `/src/a.ts` at times 1 and 5, then again at 10 and
15. -/
def repeatRun : PluginState :=
  moduleParsed '/'
    (transform '/'
      (moduleParsed '/' (transform '/' (buildStart 0) "/src/a.ts" 1)
        "/src/a.ts" 5)
      "/src/a.ts" 10)
    "/src/a.ts" 15

/-- Concrete run producing two slow modules recorded in ascending
duration order: `/src/a.ts` takes 250 (start 1, complete 251), then
`/src/b.ts` takes 300 (start 260, complete 560). -/
def outOfOrderRun : PluginState :=
  moduleParsed '/'
    (transform '/'
      (moduleParsed '/' (transform '/' (buildStart 0) "/src/a.ts" 1)
        "/src/a.ts" 251)
      "/src/b.ts" 260)
    "/src/b.ts" 560

/-- The host calling the `transform` hook once per id, in order, all at
one timestamp. -/
def startRun (sep : Char) (now : Int) : List String → PluginState → PluginState
  | [], s => s
  | id :: rest, s => startRun sep now rest (transform sep s id now)

/-- The host calling the `moduleParsed` hook once per id, in order, all
at one timestamp, collecting for each call whether the progress block
fired. -/
def completeRun (sep : Char) (now : Int) :
    List String → PluginState → PluginState × List Bool
  | [], s => (s, [])
  | id :: rest, s =>
    let r := completeRun sep now rest (moduleParsed sep s id now)
    (r.1, parsedFires sep s id :: r.2)

/-- The i-th of the 150 distinct unit ids of the progress-cadence
scenario: the string of i repetitions of `a` (distinct lengths, so
distinct ids and distinct normalized keys). -/
def c4Id (i : Nat) : String :=
  String.mk (List.replicate i 'a')

/-- The 150 distinct unit ids of the progress-cadence scenario. -/
def c4Ids : List String :=
  (List.range 150).map c4Id

/-- State after `buildStart` at 0 and a `transform` for each of the 150
units at time 1. -/
def c4Started : PluginState :=
  startRun '/' 1 c4Ids (buildStart 0)

/-- Completing all 150 units at time 100 (duration 99, below the
threshold), collecting for each completion whether the progress block
fired. -/
def c4Run : PluginState × List Bool :=
  completeRun '/' 100 c4Ids c4Started

/-! ## Helper lemmas about the association-list operations -/

theorem getAssoc_mem {l : List (String × Int)} {key : String} {v : Int}
    (h : getAssoc l key = some v) : (key, v) ∈ l := by
  induction l with
  | nil => simp [getAssoc] at h
  | cons p rest ih =>
    obtain ⟨k, w⟩ := p
    by_cases hk : k = key
    · subst hk
      simp [getAssoc] at h
      simp [h]
    · simp [getAssoc, hk] at h
      exact List.mem_cons_of_mem _ (ih h)

theorem setAssoc_mem {l : List (String × Int)} {key k : String} {val v : Int}
    (h : (k, v) ∈ setAssoc l key val) : k = key ∨ (k, v) ∈ l := by
  induction l with
  | nil =>
    simp [setAssoc] at h
    exact Or.inl h.1
  | cons p rest ih =>
    obtain ⟨k', w⟩ := p
    by_cases hk : k' = key
    · subst hk
      simp [setAssoc] at h
      rcases h with ⟨h1, _⟩ | h
      · exact Or.inl h1
      · exact Or.inr (List.mem_cons_of_mem _ h)
    · simp only [setAssoc, if_neg hk, List.mem_cons] at h
      rcases h with h | h
      · exact Or.inr (by simp [h])
      · rcases ih h with h' | h'
        · exact Or.inl h'
        · exact Or.inr (List.mem_cons_of_mem _ h')

theorem length_setAssoc (l : List (String × Int)) (key : String) (val : Int) :
    (setAssoc l key val).length ≤ l.length + 1 := by
  induction l with
  | nil => simp [setAssoc]
  | cons p rest ih =>
    obtain ⟨k, w⟩ := p
    by_cases hk : k = key
    · simp [setAssoc, hk]
    · simp only [setAssoc, if_neg hk, List.length_cons]
      omega

theorem eraseAssoc_mem {l : List (String × Int)} {key : String}
    {p : String × Int} (h : p ∈ eraseAssoc l key) : p ∈ l := by
  induction l with
  | nil => simp [eraseAssoc] at h
  | cons q rest ih =>
    obtain ⟨k', w⟩ := q
    by_cases hk : k' = key
    · simp only [eraseAssoc, if_pos hk] at h
      exact List.mem_cons_of_mem _ h
    · simp only [eraseAssoc, if_neg hk, List.mem_cons] at h
      rcases h with h | h
      · simp [h]
      · exact List.mem_cons_of_mem _ (ih h)

theorem insertDesc_perm (x : String × Int) (l : List (String × Int)) :
    (insertDesc x l).Perm (x :: l) := by
  induction l with
  | nil => simp [insertDesc]
  | cons y ys ih =>
    by_cases hy : x.2 < y.2
    · simp only [insertDesc, if_pos hy]
      exact (ih.cons y).trans (List.Perm.swap x y ys)
    · simp [insertDesc, hy]

theorem sortDesc_perm (l : List (String × Int)) : (sortDesc l).Perm l := by
  induction l with
  | nil => simp [sortDesc]
  | cons x xs ih =>
    exact (insertDesc_perm x (sortDesc xs)).trans (ih.cons x)

/-! ## Shape lemmas: each hook as an explicit record update -/

theorem transform_eq_of_mem {sep : Char} {s : PluginState} {id : String}
    (now : Int) (hmem : normalizePath sep id ∈ s.processedIds) :
    transform sep s id now =
      { s with startTimes := setAssoc s.startTimes (normalizePath sep id) now } := by
  simp [transform, hmem]

theorem transform_eq_of_not_mem {sep : Char} {s : PluginState} {id : String}
    (now : Int) (hmem : normalizePath sep id ∉ s.processedIds) :
    transform sep s id now =
      { s with processedIds := s.processedIds ++ [normalizePath sep id],
               totalModules := s.totalModules + 1,
               startTimes := setAssoc s.startTimes (normalizePath sep id) now } := by
  simp [transform, hmem]

theorem moduleParsed_eq_of_none {sep : Char} {s : PluginState} {id : String}
    (now : Int) (hget : getAssoc s.startTimes (normalizePath sep id) = none) :
    moduleParsed sep s id now = s := by
  simp [moduleParsed, hget]

theorem moduleParsed_eq_of_zero {sep : Char} {s : PluginState} {id : String}
    (now : Int) (hget : getAssoc s.startTimes (normalizePath sep id) = some 0) :
    moduleParsed sep s id now = s := by
  simp [moduleParsed, hget]

theorem moduleParsed_eq_of_some {sep : Char} {s : PluginState} {id : String}
    {t : Int} (now : Int)
    (hget : getAssoc s.startTimes (normalizePath sep id) = some t)
    (ht : t ≠ 0) :
    moduleParsed sep s id now =
      { s with
        moduleTransformTimes :=
          setAssoc s.moduleTransformTimes (normalizePath sep id) (now - t),
        processedModules := s.processedModules + 1,
        slowModules := s.slowModules ++
          (if 200 < now - t then [(normalizePath sep id, now - t)] else []),
        startTimes := eraseAssoc s.startTimes (normalizePath sep id) } := by
  simp only [moduleParsed, hget, if_neg ht]
  by_cases hslow : 200 < now - t
  · simp [hslow]
  · simp [hslow]

theorem closeBundle_eq_of_nil {s : PluginState} (h : s.slowModules = []) :
    closeBundle s = s := by
  simp [closeBundle, h]

theorem closeBundle_eq_of_ne_nil {s : PluginState} (h : s.slowModules ≠ []) :
    closeBundle s = { s with slowModules := sortDesc s.slowModules } := by
  simp [closeBundle, h]

/-! ## The registry invariant and its preservation -/

theorem inv_buildStart (now : Int) : Inv (buildStart now) := by
  simp [Inv, buildStart]

theorem inv_transform (sep : Char) (s : PluginState) (id : String) (now : Int)
    (h : Inv s) : Inv (transform sep s id now) := by
  obtain ⟨h1, h2, h3, h4, h5, h6⟩ := h
  by_cases hmem : normalizePath sep id ∈ s.processedIds
  · rw [transform_eq_of_mem now hmem]
    refine ⟨h1, h2, ?_, h4, h5, h6⟩
    intro p hp
    obtain ⟨k, v⟩ := p
    rcases setAssoc_mem hp with h' | h'
    · simpa [h'] using hmem
    · exact h3 _ h'
  · rw [transform_eq_of_not_mem now hmem]
    refine ⟨by simp [h1], ?_, ?_, ?_, h5, ?_⟩
    · simpa [List.nodup_append, h2] using hmem
    · intro p hp
      obtain ⟨k, v⟩ := p
      rcases setAssoc_mem hp with h' | h'
      · simp [h']
      · exact List.mem_append_left _ (h3 _ h')
    · intro p hp
      exact List.mem_append_left _ (h4 p hp)
    · intro hne
      exact ⟨(h6 hne).1, by simp⟩

theorem inv_moduleParsed (sep : Char) (s : PluginState) (id : String)
    (now : Int) (h : Inv s) : Inv (moduleParsed sep s id now) := by
  obtain ⟨h1, h2, h3, h4, h5, h6⟩ := h
  rcases hget : getAssoc s.startTimes (normalizePath sep id) with _ | t
  · rw [moduleParsed_eq_of_none now hget]
    exact ⟨h1, h2, h3, h4, h5, h6⟩
  · by_cases ht : t = 0
    · subst ht
      rw [moduleParsed_eq_of_zero now hget]
      exact ⟨h1, h2, h3, h4, h5, h6⟩
    · have hkey : normalizePath sep id ∈ s.processedIds :=
        h3 _ (getAssoc_mem hget)
      have hpne : s.processedIds ≠ [] := by
        intro hnil
        rw [hnil] at hkey
        simp at hkey
      rw [moduleParsed_eq_of_some now hget ht]
      refine ⟨h1, h2, ?_, ?_, ?_, ?_⟩
      · intro p hp
        exact h3 p (eraseAssoc_mem hp)
      · intro p hp
        obtain ⟨k, v⟩ := p
        rcases setAssoc_mem hp with h' | h'
        · simpa [h'] using hkey
        · exact h4 _ h'
      · have := length_setAssoc s.moduleTransformTimes (normalizePath sep id) (now - t)
        simp only
        omega
      · intro _
        exact ⟨by simp, hpne⟩

theorem inv_closeBundle (s : PluginState) (h : Inv s) : Inv (closeBundle s) := by
  obtain ⟨h1, h2, h3, h4, h5, h6⟩ := h
  by_cases hnil : s.slowModules = []
  · rw [closeBundle_eq_of_nil hnil]
    exact ⟨h1, h2, h3, h4, h5, h6⟩
  · rw [closeBundle_eq_of_ne_nil hnil]
    exact ⟨h1, h2, h3, h4, h5, fun _ => h6 hnil⟩

theorem inv_of_reachable {sep : Char} {s : PluginState}
    (h : Reachable sep s) : Inv s := by
  induction h with
  | step_start now => exact inv_buildStart now
  | step_transform id now _ ih => exact inv_transform _ _ id now ih
  | step_parsed id now _ ih => exact inv_moduleParsed _ _ id now ih
  | step_close _ ih => exact inv_closeBundle _ ih

/-- Folding further `transform` calls whose ids all normalize to an
already-registered key leaves `totalModules` unchanged and keeps the key
registered. -/
theorem foldl_transform_of_mem (sep : Char) (key : String)
    (calls : List (String × Int)) (s : PluginState)
    (hall : ∀ c ∈ calls, normalizePath sep c.1 = key)
    (hmem : key ∈ s.processedIds) :
    (calls.foldl (fun st c => transform sep st c.1 c.2) s).totalModules
        = s.totalModules
    ∧ key ∈ (calls.foldl (fun st c => transform sep st c.1 c.2) s).processedIds := by
  induction calls generalizing s with
  | nil => exact ⟨rfl, hmem⟩
  | cons c rest ih =>
    have hc : normalizePath sep c.1 = key := hall c (by simp)
    have hmem' : normalizePath sep c.1 ∈ s.processedIds := by
      rw [hc]; exact hmem
    simp only [List.foldl_cons]
    rw [transform_eq_of_mem c.2 hmem']
    exact ih _ (fun d hd => hall d (List.mem_cons_of_mem _ hd)) hmem

/-! ## Lemmas for the progress-cadence scenario -/

theorem setAssoc_eq_append {l : List (String × Int)} {key : String} {v : Int}
    (h : ∀ p ∈ l, p.1 ≠ key) : setAssoc l key v = l ++ [(key, v)] := by
  induction l with
  | nil => simp [setAssoc]
  | cons q rest ih =>
    obtain ⟨k', w⟩ := q
    have hk : k' ≠ key := h (k', w) (by simp)
    simp only [setAssoc, if_neg hk, List.cons_append]
    rw [ih (fun p hp => h p (List.mem_cons_of_mem _ hp))]

theorem takeUntilQuery_replicate (n : Nat) :
    takeUntilQuery (List.replicate n 'a') = List.replicate n 'a' := by
  induction n with
  | zero => simp [takeUntilQuery]
  | succ n ih => simp [List.replicate_succ, takeUntilQuery, ih]

theorem replaceSep_replicate (n : Nat) :
    replaceSep '/' (List.replicate n 'a') = List.replicate n 'a' := by
  induction n with
  | zero => simp [replaceSep]
  | succ n ih => simp [List.replicate_succ, replaceSep, ih]

theorem normalizePath_c4Id (i : Nat) :
    normalizePath '/' (c4Id i) = c4Id i := by
  simp [normalizePath, c4Id, takeUntilQuery_replicate, replaceSep_replicate]

theorem c4Ids_map_normalizePath : c4Ids.map (normalizePath '/') = c4Ids := by
  simp only [c4Ids, List.map_map]
  exact List.map_congr_left (fun i _ => normalizePath_c4Id i)

theorem c4Id_inj : Function.Injective c4Id := by
  intro i j h
  have := congrArg (fun s => s.data.length) h
  simpa [c4Id] using this

theorem c4Ids_nodup : c4Ids.Nodup :=
  (List.nodup_range 150).map c4Id_inj

/-- Symbolic description of the start phase: folding `transform` at time
1 over ids with pairwise-distinct fresh keys registers the keys in
order, bumps the counter by the number of ids and appends one pending
start per key. -/
theorem startRun_spec (sep : Char) (ids : List String) (s : PluginState)
    (hnd : (ids.map (normalizePath sep)).Nodup)
    (hfresh : ∀ id ∈ ids, normalizePath sep id ∉ s.processedIds)
    (hkeys : ∀ p ∈ s.startTimes, p.1 ∈ s.processedIds) :
    startRun sep 1 ids s = { s with
      processedIds := s.processedIds ++ ids.map (normalizePath sep),
      totalModules := s.totalModules + ids.length,
      startTimes := s.startTimes
        ++ ids.map (fun id => (normalizePath sep id, 1)) } := by
  induction ids generalizing s with
  | nil => simp [startRun]
  | cons id rest ih =>
    have hfresh0 : normalizePath sep id ∉ s.processedIds := hfresh id (by simp)
    have hset : setAssoc s.startTimes (normalizePath sep id) 1
        = s.startTimes ++ [(normalizePath sep id, 1)] :=
      setAssoc_eq_append (fun p hp he => hfresh0 (he ▸ hkeys p hp))
    have hknotin : normalizePath sep id ∉ rest.map (normalizePath sep) :=
      (List.nodup_cons.mp (by simpa using hnd)).1
    have hnd' : (rest.map (normalizePath sep)).Nodup :=
      (List.nodup_cons.mp (by simpa using hnd)).2
    have hfresh' : ∀ d ∈ rest,
        normalizePath sep d ∉ s.processedIds ++ [normalizePath sep id] := by
      intro d hd hor
      rcases List.mem_append.mp hor with hmem | hmem
      · exact hfresh d (List.mem_cons_of_mem _ hd) hmem
      · have he : normalizePath sep d = normalizePath sep id := by
          simpa using hmem
        exact hknotin (he ▸ List.mem_map_of_mem (normalizePath sep) hd)
    have hkeys' : ∀ p ∈ s.startTimes ++ [(normalizePath sep id, 1)],
        p.1 ∈ s.processedIds ++ [normalizePath sep id] := by
      intro p hp
      rcases List.mem_append.mp hp with hp | hp
      · exact List.mem_append_left _ (hkeys p hp)
      · have : p = (normalizePath sep id, 1) := by simpa using hp
        rw [this]
        simp
    simp only [startRun]
    rw [transform_eq_of_not_mem 1 hfresh0, hset]
    rw [ih { s with
        processedIds := s.processedIds ++ [normalizePath sep id],
        totalModules := s.totalModules + 1,
        startTimes := s.startTimes ++ [(normalizePath sep id, 1)] }
      hnd' hfresh' hkeys']
    simp [PluginState.mk.injEq, List.append_assoc]
    omega

/-- Symbolic description of the completion phase: completing at time 100
ids whose pending starts (all with timestamp 1) are exactly the
remaining list, in order, yields the progress-fire trace determined by
the completion counter, increments the counter by the number of ids and
never appends an outlier (all durations are 99). -/
theorem completeRun_spec (sep : Char) (ids : List String) (s : PluginState)
    (hstart : s.startTimes = ids.map (fun id => (normalizePath sep id, 1))) :
    (completeRun sep 100 ids s).2
        = (List.range ids.length).map (fun i =>
            (s.processedModules + i + 1) % 100 == 0
              || s.processedModules + i + 1 == s.totalModules)
    ∧ (completeRun sep 100 ids s).1.processedModules
        = s.processedModules + ids.length
    ∧ (completeRun sep 100 ids s).1.totalModules = s.totalModules
    ∧ (completeRun sep 100 ids s).1.slowModules = s.slowModules := by
  induction ids generalizing s with
  | nil => simp [completeRun]
  | cons id rest ih =>
    have hget : getAssoc s.startTimes (normalizePath sep id) = some 1 := by
      rw [hstart]
      simp [getAssoc]
    have hfires : parsedFires sep s id
        = ((s.processedModules + 1) % 100 == 0
            || s.processedModules + 1 == s.totalModules) := by
      simp [parsedFires, hget]
    have herase : eraseAssoc s.startTimes (normalizePath sep id)
        = rest.map (fun id => (normalizePath sep id, 1)) := by
      rw [hstart]
      simp [eraseAssoc]
    have hstep : moduleParsed sep s id 100 = { s with
        moduleTransformTimes :=
          setAssoc s.moduleTransformTimes (normalizePath sep id) (100 - 1),
        processedModules := s.processedModules + 1,
        startTimes := rest.map (fun id => (normalizePath sep id, 1)) } := by
      rw [moduleParsed_eq_of_some 100 hget (by decide)]
      rw [if_neg (by norm_num : ¬ (200 : Int) < 100 - 1)]
      rw [List.append_nil, herase]
    obtain ⟨h1, h2, h3, h4⟩ := ih { s with
        moduleTransformTimes :=
          setAssoc s.moduleTransformTimes (normalizePath sep id) (100 - 1),
        processedModules := s.processedModules + 1,
        startTimes := rest.map (fun id => (normalizePath sep id, 1)) } rfl
    simp only [completeRun]
    rw [hstep]
    refine ⟨?_, ?_, ?_, ?_⟩
    · rw [hfires, h1]
      dsimp only
      rw [List.length_cons, List.range_succ_eq_map, List.map_cons, List.map_map]
      refine List.cons_eq_cons.mpr ⟨?_, ?_⟩
      · simp
      · refine List.map_congr_left ?_
        intro a _
        simp only [Function.comp_apply, Nat.succ_eq_add_one]
        have harith : s.processedModules + 1 + a + 1
            = s.processedModules + (a + 1) + 1 := by omega
        rw [harith]
    · rw [h2]
      dsimp only
      rw [List.length_cons]
      omega
    · rw [h3]
    · rw [h4]

/-! ## The claims -/

/-- Claim C1 (code bug): the spec's scenario `reset()` at t=0,
`onUnitStart("/src/a.ts")` at t=0, `onUnitComplete("/src/a.ts")` at
t=250 should record `completedDurations["/src/a.ts"] == 250` and
`outliers == [("/src/a.ts", 250)]`.  The source's guard
`if (!startTime) return` treats the pending timestamp 0 as absent
(JavaScript falsiness), so the completion is dropped even though the
matching start is pending: no duration is recorded, no outlier is
appended, the completion counter stays 0, and the pending start with
timestamp 0 is still present afterwards. -/
theorem c1_zero_timestamp_completion_dropped :
    (moduleParsed '/' (transform '/' (buildStart 0) "/src/a.ts" 0)
        "/src/a.ts" 250).moduleTransformTimes = []
    ∧ (moduleParsed '/' (transform '/' (buildStart 0) "/src/a.ts" 0)
        "/src/a.ts" 250).slowModules = []
    ∧ (moduleParsed '/' (transform '/' (buildStart 0) "/src/a.ts" 0)
        "/src/a.ts" 250).processedModules = 0
    ∧ getAssoc (moduleParsed '/' (transform '/' (buildStart 0) "/src/a.ts" 0)
        "/src/a.ts" 250).startTimes "/src/a.ts" = some 0 := by
  decide

/-- Claim C2 (counterexample): after a second start/complete pair for
the same key, the completion counter is 2 while `completedDurations` has
a single (overwritten) entry, so `completedCount == size(completedDurations)`
fails at a reachable state. -/
theorem c2_counterexample :
    repeatRun.processedModules ≠ repeatRun.moduleTransformTimes.length
    ∧ repeatRun.processedModules = 2
    ∧ repeatRun.moduleTransformTimes = [("/src/a.ts", 5)] := by
  decide

/-- Claim C2 (amended): at every reachable state the completion counter
is at least the number of entries of `completedDurations` (equality can
fail when a key completes twice), and every key present in
`completedDurations` was previously added to `knownUnits`. -/
theorem c2_amended_count_bound_and_known_keys {sep : Char} {s : PluginState}
    (h : Reachable sep s) :
    s.moduleTransformTimes.length ≤ s.processedModules
    ∧ ∀ p ∈ s.moduleTransformTimes, p.1 ∈ s.processedIds := by
  obtain ⟨_, _, _, h4, h5, _⟩ := inv_of_reachable h
  exact ⟨h5, h4⟩

/-- Claim C2 (witness): the amended claim applied to the concrete
double-completion run. -/
theorem c2_amended_witness :
    repeatRun.moduleTransformTimes.length ≤ repeatRun.processedModules
    ∧ "/src/a.ts" ∈ repeatRun.processedIds := by
  have h := @c2_amended_count_bound_and_known_keys '/' _
    (Reachable.step_parsed "/src/a.ts" 15
      (Reachable.step_transform "/src/a.ts" 10
        (Reachable.step_parsed "/src/a.ts" 5
          (Reachable.step_transform "/src/a.ts" 1 (Reachable.step_start 0)))))
  exact ⟨h.1, h.2 ("/src/a.ts", 5) (by decide)⟩

/-- Claim C3 (counterexample): `closeBundle` does not leave the outlier
sequence unchanged — the source sorts `slowModules` in place
(`slowModules.sort((a, b) => b.time - a.time)`), so a reachable state
whose two outliers were recorded in ascending duration order comes back
reordered. -/
theorem c3_counterexample :
    closeBundle outOfOrderRun ≠ outOfOrderRun
    ∧ outOfOrderRun.slowModules = [("/src/a.ts", 250), ("/src/b.ts", 300)]
    ∧ (closeBundle outOfOrderRun).slowModules
        = [("/src/b.ts", 300), ("/src/a.ts", 250)] := by
  decide

/-- Claim C3 (amended): producing the final report leaves `knownUnits`,
`pendingStarts`, `completedDurations` and all counters unchanged, and
the outlier sequence keeps exactly the same entries but is permuted in
place (sorted descending by duration). -/
theorem c3_amended_close_bundle_frame (s : PluginState) :
    (closeBundle s).moduleTransformTimes = s.moduleTransformTimes
    ∧ (closeBundle s).startTimes = s.startTimes
    ∧ (closeBundle s).processedIds = s.processedIds
    ∧ (closeBundle s).totalModules = s.totalModules
    ∧ (closeBundle s).processedModules = s.processedModules
    ∧ (closeBundle s).buildStartTime = s.buildStartTime
    ∧ (closeBundle s).slowModules.Perm s.slowModules := by
  by_cases h : s.slowModules = []
  · rw [closeBundle_eq_of_nil h]
    exact ⟨rfl, rfl, rfl, rfl, rfl, rfl, List.Perm.refl _⟩
  · rw [closeBundle_eq_of_ne_nil h]
    exact ⟨rfl, rfl, rfl, rfl, rfl, rfl, sortDesc_perm _⟩

/-- Claim C4: 150 distinct units all started and then all completed with
duration 99 (below the threshold): the progress block fires exactly at
completion counts 100 and 150 (the latter because it equals
`totalModules`), and at no other count. -/
theorem c4_progress_cadence :
    c4Run.2 = (List.range 150).map (fun i => i + 1 == 100 || i + 1 == 150)
    ∧ c4Run.1.totalModules = 150
    ∧ c4Run.1.processedModules = 150
    ∧ c4Run.1.slowModules = [] := by
  have hnd : (c4Ids.map (normalizePath '/')).Nodup := by
    rw [c4Ids_map_normalizePath]
    exact c4Ids_nodup
  have hlen : c4Ids.length = 150 := by simp [c4Ids]
  have hstart := startRun_spec '/' c4Ids (buildStart 0) hnd
    (by simp [buildStart]) (by simp [buildStart])
  have hc4started : c4Started = { buildStart 0 with
      processedIds := c4Ids.map (normalizePath '/'),
      totalModules := 150,
      startTimes := c4Ids.map (fun id => (normalizePath '/' id, 1)) } := by
    unfold c4Started
    rw [hstart]
    simp [buildStart, hlen]
  obtain ⟨h1, h2, h3, h4⟩ := completeRun_spec '/' c4Ids
    { buildStart 0 with
      processedIds := c4Ids.map (normalizePath '/'),
      totalModules := 150,
      startTimes := c4Ids.map (fun id => (normalizePath '/' id, 1)) } rfl
  have hrun : c4Run = completeRun '/' 100 c4Ids
      { buildStart 0 with
        processedIds := c4Ids.map (normalizePath '/'),
        totalModules := 150,
        startTimes := c4Ids.map (fun id => (normalizePath '/' id, 1)) } := by
    unfold c4Run
    rw [hc4started]
  refine ⟨?_, ?_, ?_, ?_⟩
  · rw [hrun, h1]
    dsimp only
    rw [hlen]
    refine List.map_congr_left ?_
    intro i hi
    have hi' : i < 150 := List.mem_range.mp hi
    simp only [buildStart, Nat.zero_add]
    by_cases h100 : i + 1 = 100
    · rw [h100]
      decide
    · have hmod : (i + 1) % 100 ≠ 0 := by omega
      rw [beq_eq_false_iff_ne.mpr hmod, beq_eq_false_iff_ne.mpr h100]
  · rw [hrun, h3]
  · rw [hrun, h2]
    dsimp only
    rw [hlen]
    simp [buildStart]
  · rw [hrun, h4]
    simp [buildStart]

/-- Claim C5: completing a unit whose normalized key has no pending
start is a no-op — the whole state (all counters, maps and the outlier
list) is returned unchanged. -/
theorem c5_complete_without_start_is_noop (sep : Char) (s : PluginState)
    (id : String) (now : Int)
    (h : getAssoc s.startTimes (normalizePath sep id) = none) :
    moduleParsed sep s id now = s :=
  moduleParsed_eq_of_none now h

/-- Claim C5 (witness): completing `/src/a.ts` right after a reset. -/
theorem c5_witness :
    moduleParsed '/' (buildStart 7) "/src/a.ts" 99 = buildStart 7 :=
  c5_complete_without_start_is_noop '/' (buildStart 7) "/src/a.ts" 99 (by decide)

/-- Claim C6: any nonempty sequence of start calls whose raw ids all
normalize to one canonical key that is not yet registered increases
`totalModules` by exactly 1, not by the number of calls. -/
theorem c6_dedup_increments_once (sep : Char) (key : String)
    (calls : List (String × Int)) (s : PluginState)
    (hne : calls ≠ [])
    (hall : ∀ c ∈ calls, normalizePath sep c.1 = key)
    (hfresh : key ∉ s.processedIds) :
    (calls.foldl (fun st c => transform sep st c.1 c.2) s).totalModules
      = s.totalModules + 1 := by
  obtain ⟨c, rest, rfl⟩ := List.exists_cons_of_ne_nil hne
  have hc : normalizePath sep c.1 = key := hall c (by simp)
  simp only [List.foldl_cons]
  rw [transform_eq_of_not_mem c.2 (by rw [hc]; exact hfresh)]
  have hmem : key ∈ (s.processedIds ++ [normalizePath sep c.1]) := by
    simp [hc]
  have h := foldl_transform_of_mem sep key rest
    { s with processedIds := s.processedIds ++ [normalizePath sep c.1],
             totalModules := s.totalModules + 1,
             startTimes := setAssoc s.startTimes (normalizePath sep c.1) c.2 }
    (fun d hd => hall d (List.mem_cons_of_mem _ hd)) hmem
  exact h.1

/-- Claim C6 (witness): two start calls differing only in a query
suffix, from a fresh registry, bump `totalModules` from 0 to 1. -/
theorem c6_witness :
    (([("/src/a.ts", 1), ("/src/a.ts?v=1", 2)] : List (String × Int)).foldl
      (fun st c => transform '/' st c.1 c.2) (buildStart 0)).totalModules
      = 0 + 1 :=
  c6_dedup_increments_once '/' "/src/a.ts" _ (buildStart 0)
    (by decide) (by decide) (by decide)

/-- Claim C7: a completion that records a duration `d` appends
`(key, d)` to the outlier list exactly when `d > 200`; a duration of at
most 200 (in particular exactly 200) leaves the outlier list
unchanged. -/
theorem c7_outlier_iff_above_threshold (sep : Char) (s : PluginState)
    (id : String) (now t : Int)
    (hget : getAssoc s.startTimes (normalizePath sep id) = some t)
    (ht : t ≠ 0) :
    (moduleParsed sep s id now).slowModules =
      s.slowModules ++
        (if 200 < now - t then [(normalizePath sep id, now - t)] else []) := by
  rw [moduleParsed_eq_of_some now hget ht]

/-- Claim C7 (witness): a unit started at 5 and completed at 300
(duration 295 > 200) is appended as an outlier. -/
theorem c7_witness :
    (moduleParsed '/' (transform '/' (buildStart 0) "/src/a.ts" 5)
        "/src/a.ts" 300).slowModules = [("/src/a.ts", 295)] := by
  have h := c7_outlier_iff_above_threshold '/'
    (transform '/' (buildStart 0) "/src/a.ts" 5) "/src/a.ts" 300 5
    (by decide) (by decide)
  rw [h]
  decide

/-- Claim C8: at every reachable state, whenever the progress block's
divisions run (a completion got past the pending-start guard, so the
divisors are `totalModules` and the incremented `processedModules`) or
the final report's average runs (`slowModules` nonempty, divisor
`totalModules`), the divisors are strictly positive, so no division by
zero occurs. -/
theorem c8_no_zero_denominators {sep : Char} {s : PluginState}
    (h : Reachable sep s) :
    (∀ id t, getAssoc s.startTimes (normalizePath sep id) = some t → t ≠ 0 →
        0 < s.totalModules ∧ 0 < s.processedModules + 1)
    ∧ (s.slowModules ≠ [] → 0 < s.totalModules ∧ 0 < s.processedModules) := by
  obtain ⟨h1, _, h3, _, _, h6⟩ := inv_of_reachable h
  constructor
  · intro id t hget ht
    have hkey : normalizePath sep id ∈ s.processedIds :=
      h3 _ (getAssoc_mem hget)
    have hne : s.processedIds ≠ [] := by
      intro hnil
      rw [hnil] at hkey
      simp at hkey
    exact ⟨by rw [h1]; exact List.length_pos.mpr hne, by omega⟩
  · intro hne
    obtain ⟨hp, hids⟩ := h6 hne
    exact ⟨by rw [h1]; exact List.length_pos.mpr hids, by omega⟩

/-- Claim C8 (witness): after a reset and one start at time 1, a
completion would divide by `totalModules = 1 > 0` and
`processedModules + 1 = 1 > 0`. -/
theorem c8_witness :
    0 < (transform '/' (buildStart 0) "/src/a.ts" 1).totalModules
    ∧ 0 < (transform '/' (buildStart 0) "/src/a.ts" 1).processedModules + 1 :=
  (c8_no_zero_denominators
      (Reachable.step_transform "/src/a.ts" 1 (Reachable.step_start 0))).1
    "/src/a.ts" 1 (by decide) (by decide)

/-- Claim C9: `onUnitStart("/node_modules/lib/x.js?query=1")` followed
by `onUnitComplete("/node_modules/lib/x.js")`: the query suffix is
stripped, so both ids normalize to the same key under every platform
separator, the completion matches the pending start (started at 5,
completed at 30) and records duration 25 instead of no-oping. -/
theorem c9_query_suffix_matches :
    (∀ sep : Char, normalizePath sep "/node_modules/lib/x.js?query=1"
        = normalizePath sep "/node_modules/lib/x.js")
    ∧ (moduleParsed '/' (transform '/' (buildStart 0)
          "/node_modules/lib/x.js?query=1" 5)
        "/node_modules/lib/x.js" 30).moduleTransformTimes
        = [("/node_modules/lib/x.js", 25)]
    ∧ (moduleParsed '/' (transform '/' (buildStart 0)
          "/node_modules/lib/x.js?query=1" 5)
        "/node_modules/lib/x.js" 30).processedModules = 1 := by
  exact ⟨fun sep => rfl, by decide, by decide⟩

/-- Claim C10: at every reachable state `totalModules` equals the
cardinality of the known-unit set `processedIds` (a duplicate-free
list, so its length is its cardinality). -/
theorem c10_total_counts_known_units {sep : Char} {s : PluginState}
    (h : Reachable sep s) :
    s.totalModules = s.processedIds.length ∧ s.processedIds.Nodup := by
  obtain ⟨h1, h2, _, _, _, _⟩ := inv_of_reachable h
  exact ⟨h1, h2⟩

/-- Claim C10 (witness): the invariant at the state reached by a reset
followed by one start. -/
theorem c10_witness :
    (transform '/' (buildStart 3) "/src/b.ts" 1).totalModules
      = (transform '/' (buildStart 3) "/src/b.ts" 1).processedIds.length
    ∧ (transform '/' (buildStart 3) "/src/b.ts" 1).processedIds.Nodup :=
  c10_total_counts_known_units
    (Reachable.step_transform "/src/b.ts" 1 (Reachable.step_start 3))

end BuildProfiler
